import Mathlib

/-!
Verification of `git-smartlog.py` (the CLI driver of git-smartlog).

The Python source is embedded shallowly:
* `pull_gh_commits` (lines 105-146) is a pure function of the outcome of the
  external `gh` invocation, modelled by `GhResult`; Python dicts are modelled
  as insertion-ordered association lists with `dinsert` (replace-or-append).
* `resolve_head` (lines 28-37) is a pure function of the config value
  `remote.head` and of the repository's reference table.
* `main` (lines 148-225) is modelled as a trace of its observable effects
  (`Event`): `RefMap.add` calls, `TreeBuilder` construction and `add` calls,
  printed lines and `exit(1)`.  Everything `main` reads from the outside
  world (argv flag, clock, repository contents, config file) is a field of
  `Env`.
* `smartlog/builder.py` is not part of the sources; the one fact needed
  about it (an `add` with `ignore_date_limit = True` is never age-pruned)
  is modelled from the spec as `addWalk`.
-/

namespace Smartlog

/-- One element of a PR's `statusCheckRollup` JSON array. -/
structure Check where
  name : String
  status : String
  conclusion : String
deriving DecidableEq, Repr

/-- One element of the `createdBy` JSON array returned by
`gh pr status --json number,state,reviewDecision,title,headRefName,statusCheckRollup,url`.
`reviewDecision` is `none` for JSON `null`; `statusCheckRollup` is `none` when
the key is absent and `some none` when the key is present with value `null`. -/
structure PR where
  number : Nat
  state : String
  reviewDecision : Option String
  title : String
  headRefName : String
  statusCheckRollup : Option (Option (List Check))
  url : String
deriving DecidableEq, Repr

/-- Outcome of running the `gh` subprocess: the command fails, or it prints
JSON that parses to an object with or without a `createdBy` key. -/
inductive GhResult where
  | cmdFail : GhResult
  | output (createdBy : Option (List PR)) : GhResult
deriving DecidableEq, Repr

/-- The `GitHubPRStatus` record built by `pull_gh_commits`
(src/git-smartlog.py lines 73-97). -/
structure GitHubPRStatus where
  id : String
  branch : String
  state : String
  decision : Option String
  checks : List (String × String)
  title : String
  url : String
deriving DecidableEq, Repr

/-- Python-dict assignment `d[k] = v` on an insertion-ordered association
list: replace the value at an existing key in place, else append. -/
def dinsert {α : Type} (l : List (String × α)) (k : String) (v : α) :
    List (String × α) :=
  match l with
  | [] => [(k, v)]
  | q :: rest => if q.1 = k then (k, v) :: rest else q :: dinsert rest k v

/-- Outcome recorded for a single check (src/git-smartlog.py lines 126-134). -/
def checkOutcome (c : Check) : String :=
  if c.status = "COMPLETED" then
    if c.conclusion = "SUCCESS" then "PASSED"
    else if c.conclusion = "SKIPPED" then "SKIPPED"
    else "FAILED"
  else "RUNNING"

/-- The `checks` dict built for one PR (src/git-smartlog.py lines 123-134). -/
def buildChecks (pr : PR) : List (String × String) :=
  match pr.statusCheckRollup with
  | none => []
  | some rollup =>
      (rollup.getD []).foldl (fun acc c => dinsert acc c.name (checkOutcome c)) []

/-- `pr['reviewDecision'] or None` (src/git-smartlog.py line 141): JSON `null`
and the empty string are falsy and map to `None`. -/
def decisionOf (pr : PR) : Option String :=
  match pr.reviewDecision with
  | none => none
  | some s => if s = "" then none else some s

/-- The `GitHubPRStatus` stored for one PR (src/git-smartlog.py lines 136-145). -/
def mkStatus (pr : PR) : GitHubPRStatus :=
  { id := toString pr.number
  , branch := "origin/" ++ pr.headRefName
  , state := pr.state
  , decision := decisionOf pr
  , checks := buildChecks pr
  , title := pr.title
  , url := pr.url }

/-- `pull_gh_commits` (src/git-smartlog.py lines 105-146) as a function of the
`gh` invocation's outcome. -/
def pull_gh_commits (r : GhResult) : List (String × GitHubPRStatus) :=
  match r with
  | .cmdFail => []
  | .output none => []
  | .output (some prs) =>
      prs.foldl (fun acc pr => dinsert acc ("origin/" ++ pr.headRefName) (mkStatus pr)) []

/-- Result of `ref.tracking_branch()` for a local branch: a `ValueError`,
no upstream, or an upstream reference with its name and commit. -/
inductive Tracking where
  | err : Tracking
  | noneB : Tracking
  | track (name : String) (commit : Nat) : Tracking
deriving DecidableEq, Repr

/-- A local branch from `repo.heads`: its name, head commit and the result of
`tracking_branch()`. -/
structure Branch where
  name : String
  commit : Nat
  tracking : Tracking
deriving DecidableEq, Repr

/-- Everything `main` reads from the outside world.  Commits are opaque ids
(`Nat`); `refs` is the repository's reference table as consulted by
`repo.refs[name]`; `configHead` is the `remote`/`head` value of the smartlog
config file if present; `extraRefs` is the key list of its `extra_refs`
section if that section exists; `defaultBranch` is the result of
`infer_default_branch`; `skipCount` is the value of
`tree_builder.skip_count` read back after all `add` calls. -/
structure Env where
  allFlag : Bool
  now : Int
  cwd : String
  repoValid : Bool
  headCommit : Nat
  refs : List (String × Nat)
  heads : List Branch
  configHead : Option String
  extraRefs : Option (List String)
  defaultBranch : Option String
  skipCount : Nat
deriving DecidableEq, Repr

/-- Observable effects of `main`, in program order. -/
inductive Event where
  | refmapAdd (name : String) (commit : Nat) : Event
  | treeInit (root : Nat) (dateLimit : Option Int) : Event
  | treeAdd (commit : Nat) (ignoreDateLimit : Bool) : Event
  | printTree : Event
  | printMsg (s : String) : Event
  | printFinished : Event
  | exitOne : Event
deriving DecidableEq, Repr

/-- `repo.refs[name]`: `some` commit when the reference exists, `none` for the
`IndexError` case. -/
def lookupRef (refs : List (String × Nat)) (k : String) : Option Nat :=
  (refs.find? (fun p => p.1 = k)).map (fun p => p.2)

/-- `resolve_head` (src/git-smartlog.py lines 28-37): for each candidate name
the refname looked up is the configured `remote`/`head` value when present,
`origin/{name}` otherwise; the first existing reference is returned. -/
def resolve_head (configHead : Option String) (refs : List (String × Nat)) :
    List String → Option (String × Nat)
  | [] => none
  | name :: rest =>
      let refname := configHead.getD ("origin/" ++ name)
      match lookupRef refs refname with
      | some c => some (refname, c)
      | none => resolve_head configHead refs rest

/-- The candidate list built at src/git-smartlog.py line 181. -/
def candidates (defaultBranch : Option String) : List String :=
  (match defaultBranch with | some d => [d] | none => []) ++
    ["main", "trunk", "master"]

/-- `date_limit` (src/git-smartlog.py lines 153-157). -/
def date_limit (allFlag : Bool) (now : Int) : Option Int :=
  if allFlag then none else some (now - 14 * 24 * 3600)

/-- Message printed when the working directory is no git repository
(src/git-smartlog.py line 164). -/
def noRepoMsg (cwd : String) : String :=
  "Could not find a git repository at " ++ cwd

/-- Message printed for an `extra_refs` entry that does not resolve
(src/git-smartlog.py line 216). -/
def warnMsg (key : String) : String :=
  "Unable to find " ++ key ++ " ref. Check configuration in .git/smartlog file"

/-- Summary line for skipped commits (src/git-smartlog.py line 223). -/
def skipMsg (n : Nat) : String :=
  "Skipped " ++ toString n ++ " old commits. Use `-a` argument to display them."

/-- Effects of the per-branch loop body (src/git-smartlog.py lines 193-206). -/
def branchEvents (b : Branch) : List Event :=
  [.treeAdd b.commit false, .refmapAdd b.name b.commit] ++
    (match b.tracking with
     | .err => []
     | .noneB => []
     | .track rn rc =>
         (if rc ≠ b.commit then [.treeAdd rc false] else []) ++ [.refmapAdd rn rc])

/-- Effects of the `extra_refs` loop (src/git-smartlog.py lines 209-216). -/
def extraEvents (refs : List (String × Nat)) : List String → List Event
  | [] => []
  | k :: rest =>
      (match lookupRef refs k with
       | some c => [.refmapAdd k c, .treeAdd c false]
       | none => [.printMsg (warnMsg k)]) ++ extraEvents refs rest

/-- The effect trace of `main` (src/git-smartlog.py lines 148-225). -/
def mainTrace (env : Env) : List Event :=
  if env.repoValid = false then
    [.printMsg (noRepoMsg env.cwd), .exitOne]
  else
    match resolve_head env.configHead env.refs (candidates env.defaultBranch) with
    | none => [.printMsg "Unable to find head branch!", .exitOne]
    | some (hname, hcommit) =>
        [.refmapAdd hname hcommit,
         .treeInit hcommit (date_limit env.allFlag env.now),
         .treeAdd env.headCommit true] ++
        env.heads.flatMap branchEvents ++
        (match env.extraRefs with
         | none => []
         | some keys => extraEvents env.refs keys) ++
        [.printTree] ++
        (if env.skipCount > 0 then [.printMsg (skipMsg env.skipCount)] else []) ++
        [.printFinished]

/-- Modelled from the spec: the backward walk performed by `TreeBuilder.add`
(`smartlog/builder.py` is not among the sources; spec section 4.2).  Walks
from `c` through first parents until it reaches a commit already `visited`
(success: returns the chain of new commits), hits a commit older than the
date limit with `ignore = false` that is not the commit originally passed
(prune: chain discarded, `none`), or runs out of parents or fuel (`none`). -/
def addWalk (parent : Nat → Option Nat) (old : Nat → Bool) (ignore : Bool)
    (orig : Nat) (visited : List Nat) : Nat → Nat → Option (List Nat)
  | 0, _ => none
  | fuel + 1, c =>
      if visited.contains c then some []
      else if old c && !ignore && c != orig then none
      else
        match parent c with
        | none => none
        | some p => (addWalk parent old ignore orig visited fuel p).map (fun l => c :: l)

/-- Modelled from the spec: the visited-set update of a successful
`TreeBuilder.add` — on success the walked chain joins the tree. -/
def addResult (parent : Nat → Option Nat) (old : Nat → Bool) (ignore : Bool)
    (fuel : Nat) (visited : List Nat) (c : Nat) : Option (List Nat) :=
  (addWalk parent old ignore c visited fuel c).map (fun chain => chain ++ visited)

/-- Modelled from the spec: the age test of `TreeBuilder` — a commit is "too
old" when a date limit is set and the commit's timestamp is below it. -/
def oldAt (dateLimit : Option Int) (ts : Nat → Int) (c : Nat) : Bool :=
  match dateLimit with
  | none => false
  | some l => decide (ts c < l)

/-- Recognizer for `TreeBuilder.add` events. -/
def isTreeAdd : Event → Bool
  | .treeAdd _ _ => true
  | _ => false

/-- Number of `TreeBuilder.add` calls on commit `c` with
`ignore_date_limit = False` in a trace. -/
def countAdd (c : Nat) : List Event → Nat
  | [] => 0
  | e :: rest => (if e = Event.treeAdd c false then 1 else 0) + countAdd c rest

/-- The local branch points at commit `c`. -/
def localAt (c : Nat) (b : Branch) : Bool :=
  b.commit == c

/-- The branch has an upstream pointing at `c` that differs from the local
branch's commit. -/
def upAt (c : Nat) (b : Branch) : Bool :=
  match b.tracking with
  | .track _ rc => rc == c && rc != b.commit
  | _ => false

/-- The `extra_refs` key resolves to commit `c`. -/
def extraAt (refs : List (String × Nat)) (c : Nat) (k : String) : Bool :=
  lookupRef refs k == some c

/-- A concrete environment for a successful run. -/
def envOk : Env :=
  { allFlag := false, now := 2000000, cwd := "/w", repoValid := true,
    headCommit := 5,
    refs := [("origin/main", 1), ("origin/feature", 3), ("origin/extra", 9)],
    heads := [⟨"feature", 3, .track "origin/feature" 3⟩,
              ⟨"dev", 4, .track "origin/old" 7⟩,
              ⟨"solo", 6, .noneB⟩],
    configHead := none,
    extraRefs := some ["origin/extra", "missing"],
    defaultBranch := none, skipCount := 2 }

/-- A concrete environment whose working directory is no git repository. -/
def envBad : Env :=
  { allFlag := true, now := 0, cwd := "/tmp/x", repoValid := false,
    headCommit := 0, refs := [], heads := [], configHead := none,
    extraRefs := none, defaultBranch := none, skipCount := 0 }

/-- A concrete environment in which no trunk head resolves. -/
def envNoHead : Env :=
  { allFlag := false, now := 100, cwd := "/w", repoValid := true,
    headCommit := 0, refs := [("origin/other", 2)], heads := [],
    configHead := none, extraRefs := none, defaultBranch := none,
    skipCount := 0 }

/-- A PR whose `reviewDecision` is an unexpected non-empty string. -/
def prCex : PR :=
  { number := 7, state := "OPEN", reviewDecision := some "UNKNOWN",
    title := "t", headRefName := "feat",
    statusCheckRollup := some (some [⟨"build", "COMPLETED", "FAILURE"⟩,
                                     ⟨"lint", "IN_PROGRESS", ""⟩]),
    url := "u" }

/-- A PR with an ordinary approved decision. -/
def prOk : PR :=
  { number := 3, state := "OPEN", reviewDecision := some "APPROVED",
    title := "ok", headRefName := "good",
    statusCheckRollup := some (some [⟨"build", "COMPLETED", "SUCCESS"⟩]),
    url := "u2" }

/-! ## Helper lemmas -/

theorem mem_dinsert {α : Type} (k : String) (v : α) (l : List (String × α)) :
    ∀ q ∈ dinsert l k v, q ∈ l ∨ q = (k, v) := by
  induction l with
  | nil =>
      intro q hq
      right
      simpa [dinsert] using hq
  | cons p rest ih =>
      intro q hq
      by_cases h : p.1 = k
      · simp [dinsert, h] at hq
        rcases hq with hq | hq
        · right; simp [hq]
        · left; simp [hq]
      · simp [dinsert, h] at hq
        rcases hq with hq | hq
        · left; simp [hq]
        · rcases ih q hq with h1 | h1
          · left; simp [h1]
          · right; exact h1

theorem mem_foldl_dinsert {α β : Type} (P : String × α → Prop)
    (f : β → String) (g : β → α) :
    ∀ (xs : List β) (acc : List (String × α)),
      (∀ q ∈ acc, P q) → (∀ x ∈ xs, P (f x, g x)) →
      ∀ q ∈ xs.foldl (fun acc x => dinsert acc (f x) (g x)) acc, P q := by
  intro xs
  induction xs with
  | nil =>
      intro acc hacc _ q hq
      exact hacc q (by simpa using hq)
  | cons x rest ih =>
      intro acc hacc hxs q hq
      simp only [List.foldl_cons] at hq
      refine ih (dinsert acc (f x) (g x)) ?_ ?_ q hq
      · intro q' hq'
        rcases mem_dinsert (f x) (g x) acc q' hq' with h | h
        · exact hacc q' h
        · rw [h]; exact hxs x (List.mem_cons_self x rest)
      · intro x' hx'
        exact hxs x' (List.mem_cons_of_mem _ hx')

theorem checkOutcome_mem (c : Check) :
    checkOutcome c = "PASSED" ∨ checkOutcome c = "SKIPPED" ∨
      checkOutcome c = "FAILED" ∨ checkOutcome c = "RUNNING" := by
  unfold checkOutcome
  split_ifs <;> simp

theorem buildChecks_outcomes (pr : PR) :
    ∀ q ∈ buildChecks pr, q.2 = "PASSED" ∨ q.2 = "SKIPPED" ∨
      q.2 = "FAILED" ∨ q.2 = "RUNNING" := by
  unfold buildChecks
  cases pr.statusCheckRollup with
  | none => simp
  | some rollup =>
      refine mem_foldl_dinsert _ Check.name checkOutcome (rollup.getD []) [] ?_ ?_
      · simp
      · intro x _
        exact checkOutcome_mem x

theorem pull_gh_entries (prs : List PR) :
    ∀ q ∈ pull_gh_commits (GhResult.output (some prs)),
      ∃ pr ∈ prs, q.1 = "origin/" ++ pr.headRefName ∧ q.2 = mkStatus pr := by
  refine mem_foldl_dinsert _ (fun pr => "origin/" ++ pr.headRefName) mkStatus prs [] ?_ ?_
  · simp
  · intro pr hpr
    exact ⟨pr, hpr, rfl, rfl⟩

theorem mainTrace_success (env : Env) (hname : String) (hc : Nat)
    (h1 : env.repoValid = true)
    (h2 : resolve_head env.configHead env.refs (candidates env.defaultBranch) =
      some (hname, hc)) :
    mainTrace env =
      [Event.refmapAdd hname hc,
       Event.treeInit hc (date_limit env.allFlag env.now),
       Event.treeAdd env.headCommit true] ++
      env.heads.flatMap branchEvents ++
      (match env.extraRefs with
       | none => []
       | some keys => extraEvents env.refs keys) ++
      [Event.printTree] ++
      (if env.skipCount > 0 then [Event.printMsg (skipMsg env.skipCount)] else []) ++
      [Event.printFinished] := by
  rw [mainTrace, h2]
  simp [h1]

theorem countAdd_append (c : Nat) (l1 l2 : List Event) :
    countAdd c (l1 ++ l2) = countAdd c l1 + countAdd c l2 := by
  induction l1 with
  | nil => simp [countAdd]
  | cons e rest ih =>
      simp only [List.cons_append, countAdd, List.append_eq, ih]
      omega

theorem countAdd_branchEvents (c : Nat) (b : Branch) :
    countAdd c (branchEvents b) =
      (if localAt c b then 1 else 0) + (if upAt c b then 1 else 0) := by
  cases h : b.tracking with
  | err =>
      by_cases hbc : b.commit = c <;>
        simp [branchEvents, h, countAdd, localAt, upAt, hbc]
  | noneB =>
      by_cases hbc : b.commit = c <;>
        simp [branchEvents, h, countAdd, localAt, upAt, hbc]
  | track rn rc =>
      by_cases h3 : rc = b.commit
      · subst h3
        by_cases h1 : b.commit = c <;>
          simp [branchEvents, h, countAdd, countAdd_append, localAt, upAt, h1]
      · by_cases h2 : rc = c
        · subst h2
          have h1 : ¬(b.commit = rc) := fun hh => h3 hh.symm
          simp [branchEvents, h, countAdd, countAdd_append, localAt, upAt,
            h1, h3]
        · by_cases h1 : b.commit = c <;>
            simp [branchEvents, h, countAdd, countAdd_append, localAt, upAt,
              h1, h2, h3]

theorem countAdd_flatMap (c : Nat) (l : List Branch) :
    countAdd c (l.flatMap branchEvents) =
      l.countP (localAt c) + l.countP (upAt c) := by
  induction l with
  | nil => simp [countAdd]
  | cons b rest ih =>
      simp only [List.flatMap_cons, countAdd_append, countAdd_branchEvents, ih,
        List.countP_cons]
      by_cases hL : localAt c b <;> by_cases hU : upAt c b <;>
        simp [hL, hU] <;> omega

theorem countAdd_extraEvents (c : Nat) (refs : List (String × Nat)) :
    ∀ keys : List String,
      countAdd c (extraEvents refs keys) = keys.countP (extraAt refs c) := by
  intro keys
  induction keys with
  | nil => simp [extraEvents, countAdd]
  | cons k rest ih =>
      simp only [extraEvents, countAdd_append, ih, List.countP_cons]
      cases hl : lookupRef refs k with
      | none => simp [countAdd, extraAt, hl]
      | some c' =>
          by_cases hc : c' = c
          · simp [countAdd, extraAt, hl, hc]
            omega
          · simp [countAdd, extraAt, hl, hc]

theorem branchEvents_mem_local (b : Branch) :
    Event.treeAdd b.commit false ∈ branchEvents b ∧
      Event.refmapAdd b.name b.commit ∈ branchEvents b := by
  cases h : b.tracking <;> simp [branchEvents, h]

theorem branchEvents_mem_track (b : Branch) (rn : String) (rc : Nat)
    (ht : b.tracking = Tracking.track rn rc) :
    Event.refmapAdd rn rc ∈ branchEvents b ∧
      (rc ≠ b.commit → Event.treeAdd rc false ∈ branchEvents b) := by
  constructor
  · by_cases hne : rc = b.commit <;> simp [branchEvents, ht, hne]
  · intro hne
    simp [branchEvents, ht, hne]

theorem mem_extraEvents_found (refs : List (String × Nat)) (k : String) (c : Nat)
    (hl : lookupRef refs k = some c) :
    ∀ keys : List String, k ∈ keys →
      Event.refmapAdd k c ∈ extraEvents refs keys ∧
        Event.treeAdd c false ∈ extraEvents refs keys := by
  intro keys hk
  induction keys with
  | nil => cases hk
  | cons k' rest ih =>
      rcases List.mem_cons.mp hk with h | h
      · subst h
        constructor <;> simp [extraEvents, hl]
      · rcases ih h with ⟨h1, h2⟩
        constructor
        · simp only [extraEvents]
          exact List.mem_append_right _ h1
        · simp only [extraEvents]
          exact List.mem_append_right _ h2

theorem mem_extraEvents_warn (refs : List (String × Nat)) (k : String)
    (hl : lookupRef refs k = none) :
    ∀ keys : List String, k ∈ keys →
      Event.printMsg (warnMsg k) ∈ extraEvents refs keys := by
  intro keys hk
  induction keys with
  | nil => cases hk
  | cons k' rest ih =>
      rcases List.mem_cons.mp hk with h | h
      · subst h
        simp [extraEvents, hl]
      · simp only [extraEvents]
        exact List.mem_append_right _ (ih h)

theorem exitOne_not_branchEvents (b : Branch) :
    Event.exitOne ∉ branchEvents b := by
  cases h : b.tracking with
  | err => simp [branchEvents, h]
  | noneB => simp [branchEvents, h]
  | track rn rc =>
      by_cases hne : rc = b.commit <;> simp [branchEvents, h, hne]

theorem exitOne_not_extraEvents (refs : List (String × Nat)) :
    ∀ keys : List String, Event.exitOne ∉ extraEvents refs keys := by
  intro keys
  induction keys with
  | nil => simp [extraEvents]
  | cons k rest ih =>
      intro hmem
      rcases List.mem_append.mp (by simpa only [extraEvents] using hmem) with h | h
      · revert h
        cases hl : lookupRef refs k <;> simp
      · exact ih h

theorem exitOne_not_success (env : Env) (hname : String) (hc : Nat)
    (h1 : env.repoValid = true)
    (h2 : resolve_head env.configHead env.refs (candidates env.defaultBranch) =
      some (hname, hc)) :
    Event.exitOne ∉ mainTrace env := by
  rw [mainTrace_success env hname hc h1 h2]
  intro hmem
  simp only [List.mem_append] at hmem
  rcases hmem with ((((h | h) | h) | h) | h) | h
  · simp at h
  · rcases List.mem_flatMap.mp h with ⟨b, _, hb⟩
    exact exitOne_not_branchEvents b hb
  · revert h
    cases env.extraRefs with
    | none => simp
    | some keys => exact exitOne_not_extraEvents env.refs keys
  · simp at h
  · revert h
    split <;> simp
  · simp at h

theorem addWalk_ignore_mem (parent : Nat → Option Nat) (old : Nat → Bool)
    (orig : Nat) (visited : List Nat) (fuel : Nat) (c : Nat) (chain : List Nat)
    (h : addWalk parent old true orig visited fuel c = some chain) :
    c ∈ chain ∨ c ∈ visited := by
  cases fuel with
  | zero => simp [addWalk] at h
  | succ n =>
      rw [addWalk] at h
      by_cases hv : visited.contains c
      · right
        exact List.mem_of_elem_eq_true hv
      · left
        simp only [hv, if_false, Bool.not_true, Bool.and_false, Bool.false_and,
          if_neg] at h
        cases hp : parent c with
        | none => rw [hp] at h; simp at h
        | some p =>
            rw [hp] at h
            rcases Option.map_eq_some'.mp h with ⟨l, _, hl⟩
            rw [← hl]
            exact List.mem_cons_self c l

/-! ## Claims -/

/-- C3: in the review-status map returned by `pull_gh_commits`, every recorded
check outcome is one of PASSED, SKIPPED, FAILED, RUNNING; a check whose status
is not COMPLETED maps to RUNNING, a COMPLETED check maps to PASSED on
conclusion SUCCESS, to SKIPPED on conclusion SKIPPED, and to FAILED on every
other conclusion. -/
theorem smartlog_C3 :
    (∀ r : GhResult, ∀ p ∈ pull_gh_commits r, ∀ q ∈ p.2.checks,
      q.2 = "PASSED" ∨ q.2 = "SKIPPED" ∨ q.2 = "FAILED" ∨ q.2 = "RUNNING") ∧
    (∀ c : Check, c.status ≠ "COMPLETED" → checkOutcome c = "RUNNING") ∧
    (∀ c : Check, c.status = "COMPLETED" → c.conclusion = "SUCCESS" →
      checkOutcome c = "PASSED") ∧
    (∀ c : Check, c.status = "COMPLETED" → c.conclusion = "SKIPPED" →
      checkOutcome c = "SKIPPED") ∧
    (∀ c : Check, c.status = "COMPLETED" → c.conclusion ≠ "SUCCESS" →
      c.conclusion ≠ "SKIPPED" → checkOutcome c = "FAILED") := by
  refine ⟨?_, ?_, ?_, ?_, ?_⟩
  · intro r p hp q hq
    match r with
    | GhResult.cmdFail => simp [pull_gh_commits] at hp
    | GhResult.output none => simp [pull_gh_commits] at hp
    | GhResult.output (some prs) =>
        obtain ⟨pr, _, _, hval⟩ := pull_gh_entries prs p hp
        have : p.2.checks = buildChecks pr := by rw [hval]; rfl
        rw [this] at hq
        exact buildChecks_outcomes pr q hq
  · intro c h
    simp [checkOutcome, h]
  · intro c h1 h2
    simp [checkOutcome, h1, h2]
  · intro c h1 h2
    simp [checkOutcome, h1, h2]
  · intro c h1 h2 h3
    simp [checkOutcome, h1, h2, h3]

/-- Witness for C3 at concrete checks. -/
theorem smartlog_C3_witness :
    checkOutcome ⟨"b", "QUEUED", ""⟩ = "RUNNING" ∧
      checkOutcome ⟨"b", "COMPLETED", "FAILURE"⟩ = "FAILED" :=
  ⟨smartlog_C3.2.1 ⟨"b", "QUEUED", ""⟩ (by decide),
   smartlog_C3.2.2.2.2 ⟨"b", "COMPLETED", "FAILURE"⟩ rfl (by decide) (by decide)⟩

/-- C5: `pull_gh_commits` returns the empty mapping when the `gh` command
fails or the parsed JSON has no `createdBy` key. -/
theorem smartlog_C5 :
    pull_gh_commits GhResult.cmdFail = [] ∧
      pull_gh_commits (GhResult.output none) = [] :=
  ⟨rfl, rfl⟩

/-- C6: every key of the map returned by `pull_gh_commits` is
`origin/` ++ the PR's `headRefName`, and the stored record's `branch` field
equals its key. -/
theorem smartlog_C6 (r : GhResult) :
    ∀ p ∈ pull_gh_commits r,
      p.2.branch = p.1 ∧
      ∀ prs, r = GhResult.output (some prs) →
        ∃ pr ∈ prs, p.1 = "origin/" ++ pr.headRefName := by
  intro p hp
  match r with
  | GhResult.cmdFail => simp [pull_gh_commits] at hp
  | GhResult.output none => simp [pull_gh_commits] at hp
  | GhResult.output (some prs0) =>
      obtain ⟨pr, hpr, hkey, hval⟩ := pull_gh_entries prs0 p hp
      constructor
      · rw [hval, hkey]; rfl
      · intro prs hprs
        cases hprs
        exact ⟨pr, hpr, hkey⟩

/-- Witness for C6 at a concrete PR list. -/
theorem smartlog_C6_witness :
    ("origin/good", mkStatus prOk).2.branch = ("origin/good", mkStatus prOk).1 :=
  (smartlog_C6 (GhResult.output (some [prOk]))
    ("origin/good", mkStatus prOk) (by decide)).1

/-- C4 fails as stated: a PR whose `reviewDecision` is an unexpected
non-empty string is stored with that string as its decision, which is none
of APPROVED, CHANGES_REQUESTED, REVIEW_REQUIRED, NONE. -/
theorem smartlog_C4_counterexample :
    ∃ p ∈ pull_gh_commits (GhResult.output (some [prCex])),
      ¬(p.2.decision = some "APPROVED" ∨ p.2.decision = some "CHANGES_REQUESTED" ∨
        p.2.decision = some "REVIEW_REQUIRED" ∨ p.2.decision = none) := by
  decide

/-- C4 amended: the decision field is the PR's raw `reviewDecision` when that
is non-null and non-empty and NONE otherwise, so it is one of the four values
whenever every input PR's `reviewDecision` is null, empty, or one of the three
decision strings. -/
theorem smartlog_C4_amended (prs : List PR)
    (h : ∀ pr ∈ prs, pr.reviewDecision = none ∨ pr.reviewDecision = some "" ∨
      pr.reviewDecision = some "APPROVED" ∨
      pr.reviewDecision = some "CHANGES_REQUESTED" ∨
      pr.reviewDecision = some "REVIEW_REQUIRED") :
    ∀ p ∈ pull_gh_commits (GhResult.output (some prs)),
      p.2.decision = none ∨ p.2.decision = some "APPROVED" ∨
        p.2.decision = some "CHANGES_REQUESTED" ∨
        p.2.decision = some "REVIEW_REQUIRED" := by
  refine mem_foldl_dinsert _ (fun pr => "origin/" ++ pr.headRefName) mkStatus prs [] ?_ ?_
  · simp
  · intro pr hpr
    have hd : (mkStatus pr).decision = decisionOf pr := rfl
    rw [hd]
    rcases h pr hpr with h1 | h1 | h1 | h1 | h1 <;> simp [decisionOf, h1]

/-- Witness for C4's amended claim at a concrete PR list. -/
theorem smartlog_C4_witness :
    ("origin/good", mkStatus prOk).2.decision = none ∨
      ("origin/good", mkStatus prOk).2.decision = some "APPROVED" ∨
      ("origin/good", mkStatus prOk).2.decision = some "CHANGES_REQUESTED" ∨
      ("origin/good", mkStatus prOk).2.decision = some "REVIEW_REQUIRED" :=
  smartlog_C4_amended [prOk] (by decide) ("origin/good", mkStatus prOk) (by decide)

/-- C1: in a successful run, every local branch is registered in RefMap and
its commit fed to `TreeBuilder.add`; its upstream, when present, is
registered in RefMap but its commit fed to `TreeBuilder.add` exactly when it
differs from the local branch's commit; every resolving `extra_refs` entry is
registered in RefMap and its commit fed to `TreeBuilder.add`.  The count
equation makes "exactly when" precise: the date-limited `add` calls on a
commit are one per local branch at it, one per differing upstream at it, and
one per resolving extra ref at it. -/
theorem smartlog_C1 (env : Env) (hname : String) (hc : Nat)
    (h1 : env.repoValid = true)
    (h2 : resolve_head env.configHead env.refs (candidates env.defaultBranch) =
      some (hname, hc)) :
    (∀ b ∈ env.heads,
      Event.refmapAdd b.name b.commit ∈ mainTrace env ∧
        Event.treeAdd b.commit false ∈ mainTrace env) ∧
    (∀ b ∈ env.heads, ∀ rn rc, b.tracking = Tracking.track rn rc →
      Event.refmapAdd rn rc ∈ mainTrace env ∧
        (rc ≠ b.commit → Event.treeAdd rc false ∈ mainTrace env)) ∧
    (∀ keys, env.extraRefs = some keys → ∀ k ∈ keys, ∀ c,
      lookupRef env.refs k = some c →
      Event.refmapAdd k c ∈ mainTrace env ∧
        Event.treeAdd c false ∈ mainTrace env) ∧
    (∀ c, countAdd c (mainTrace env) =
      env.heads.countP (localAt c) + env.heads.countP (upAt c) +
        (env.extraRefs.getD []).countP (extraAt env.refs c)) := by
  have htr := mainTrace_success env hname hc h1 h2
  have hmemF : ∀ x : Event, x ∈ env.heads.flatMap branchEvents →
      x ∈ mainTrace env := by
    intro x hx
    rw [htr]
    simp only [List.append_assoc, List.mem_append]
    exact Or.inr (Or.inl hx)
  have hmemE : ∀ keys, env.extraRefs = some keys →
      ∀ x : Event, x ∈ extraEvents env.refs keys → x ∈ mainTrace env := by
    intro keys hkeys x hx
    rw [htr, hkeys]
    simp only [List.append_assoc, List.mem_append]
    exact Or.inr (Or.inr (Or.inl hx))
  refine ⟨?_, ?_, ?_, ?_⟩
  · intro b hb
    exact ⟨hmemF _ (List.mem_flatMap.mpr ⟨b, hb, (branchEvents_mem_local b).2⟩),
      hmemF _ (List.mem_flatMap.mpr ⟨b, hb, (branchEvents_mem_local b).1⟩)⟩
  · intro b hb rn rc ht
    refine ⟨hmemF _ (List.mem_flatMap.mpr
      ⟨b, hb, (branchEvents_mem_track b rn rc ht).1⟩), ?_⟩
    intro hne
    exact hmemF _ (List.mem_flatMap.mpr
      ⟨b, hb, (branchEvents_mem_track b rn rc ht).2 hne⟩)
  · intro keys hkeys k hk c hc'
    exact ⟨hmemE keys hkeys _ ((mem_extraEvents_found env.refs k c hc' keys hk).1),
      hmemE keys hkeys _ ((mem_extraEvents_found env.refs k c hc' keys hk).2)⟩
  · intro c
    rw [htr]
    rw [countAdd_append, countAdd_append, countAdd_append, countAdd_append,
      countAdd_append]
    rw [countAdd_flatMap]
    cases hex : env.extraRefs with
    | none =>
        by_cases hs : env.skipCount > 0 <;> simp [hs, countAdd]
    | some keys =>
        rw [countAdd_extraEvents]
        by_cases hs : env.skipCount > 0 <;> simp [hs, countAdd]

/-- Witness for C1 at a concrete environment. -/
theorem smartlog_C1_witness :
    Event.refmapAdd "feature" 3 ∈ mainTrace envOk ∧
      Event.treeAdd 7 false ∈ mainTrace envOk ∧
      countAdd 7 (mainTrace envOk) =
        envOk.heads.countP (localAt 7) + envOk.heads.countP (upAt 7) +
          (envOk.extraRefs.getD []).countP (extraAt envOk.refs 7) := by
  have h := smartlog_C1 envOk "origin/main" 1 rfl (by decide)
  refine ⟨(h.1 ⟨"feature", 3, .track "origin/feature" 3⟩ (by decide)).1, ?_,
    h.2.2.2 7⟩
  exact (h.2.1 ⟨"dev", 4, .track "origin/old" 7⟩ (by decide) "origin/old" 7
    rfl).2 (by decide)

/-- C2: in a successful run the builder is constructed with the trunk head
commit as root and the current-position commit is the first commit passed to
`TreeBuilder.add`, with `ignore_date_limit = True`; and (builder modelled from
the spec) a successful `add` walk with the ignore flag set always places the
passed commit in the tree, whatever its age. -/
theorem smartlog_C2 (env : Env) (hname : String) (hc : Nat)
    (h1 : env.repoValid = true)
    (h2 : resolve_head env.configHead env.refs (candidates env.defaultBranch) =
      some (hname, hc)) :
    (∃ rest, mainTrace env =
      Event.refmapAdd hname hc ::
        Event.treeInit hc (date_limit env.allFlag env.now) ::
        Event.treeAdd env.headCommit true :: rest) ∧
    ((mainTrace env).filter isTreeAdd).head? =
      some (Event.treeAdd env.headCommit true) ∧
    (∀ (parent : Nat → Option Nat) (old : Nat → Bool) (fuel : Nat)
        (visited : List Nat) (c : Nat) (vis' : List Nat),
      addResult parent old true fuel visited c = some vis' → c ∈ vis') := by
  have htr := mainTrace_success env hname hc h1 h2
  refine ⟨⟨_, by rw [htr]; simp only [List.append_assoc]; rfl⟩, ?_, ?_⟩
  · rw [htr]
    simp [List.filter_append, List.filter, isTreeAdd]
  · intro parent old fuel visited c vis' hres
    unfold addResult at hres
    cases hw : addWalk parent old true c visited fuel c with
    | none => rw [hw] at hres; simp at hres
    | some chain =>
        rw [hw] at hres
        simp only [Option.map_some'] at hres
        rw [← Option.some.inj hres]
        rcases addWalk_ignore_mem parent old c visited fuel c chain hw with h | h
        · exact List.mem_append_left _ h
        · exact List.mem_append_right _ h

/-- Witness for C2 at a concrete environment and a concrete old commit. -/
theorem smartlog_C2_witness :
    ((mainTrace envOk).filter isTreeAdd).head? =
      some (Event.treeAdd envOk.headCommit true) ∧
      (5 : Nat) ∈ ([5, 0] : List Nat) :=
  ⟨(smartlog_C2 envOk "origin/main" 1 rfl (by decide)).2.1,
   (smartlog_C2 envOk "origin/main" 1 rfl (by decide)).2.2
     (fun _ => some 0) (fun _ => true) 3 [0] 5 [5, 0] (by decide)⟩

/-- C7: in a successful run the trace ends with the tree printout, then the
skipped-commits summary exactly when `skip_count > 0`, then the elapsed-time
line; the summary text contains the skip count and mentions `-a`. -/
theorem smartlog_C7 (env : Env) (hname : String) (hc : Nat)
    (h1 : env.repoValid = true)
    (h2 : resolve_head env.configHead env.refs (candidates env.defaultBranch) =
      some (hname, hc)) :
    (∃ pre, mainTrace env = pre ++ [Event.printTree] ++
      (if env.skipCount > 0 then [Event.printMsg (skipMsg env.skipCount)]
       else []) ++
      [Event.printFinished]) ∧
    (∀ n : Nat, ∃ t, skipMsg n = "Skipped " ++ toString n ++ t ∧
      ∃ u v, t = u ++ "-a" ++ v) := by
  constructor
  · exact ⟨_, mainTrace_success env hname hc h1 h2⟩
  · intro n
    refine ⟨" old commits. Use `-a` argument to display them.", rfl,
      " old commits. Use `", "` argument to display them.", ?_⟩
    decide

/-- Witness for C7 at a concrete environment. -/
theorem smartlog_C7_witness :
    (∃ pre, mainTrace envOk = pre ++ [Event.printTree] ++
      (if envOk.skipCount > 0 then [Event.printMsg (skipMsg envOk.skipCount)]
       else []) ++
      [Event.printFinished]) ∧
    (∃ t, skipMsg 2 = "Skipped " ++ toString 2 ++ t ∧
      ∃ u v, t = u ++ "-a" ++ v) :=
  ⟨(smartlog_C7 envOk "origin/main" 1 rfl (by decide)).1,
   (smartlog_C7 envOk "origin/main" 1 rfl (by decide)).2 2⟩

/-- C8: without `--all` the date limit is the current time minus exactly
14 days of seconds, with `--all` it is `None`, and that value is the one the
`TreeBuilder` is constructed with; (builder modelled from the spec) with no
date limit nothing is ever too old, so the age test never prunes and the
ignore flag makes no difference to the walk. -/
theorem smartlog_C8 (env : Env) :
    (env.allFlag = false →
      date_limit env.allFlag env.now = some (env.now - 14 * 24 * 3600)) ∧
    (env.allFlag = true → date_limit env.allFlag env.now = none) ∧
    (∀ hname hc, env.repoValid = true →
      resolve_head env.configHead env.refs (candidates env.defaultBranch) =
        some (hname, hc) →
      Event.treeInit hc (date_limit env.allFlag env.now) ∈ mainTrace env) ∧
    (∀ (ts : Nat → Int) (c : Nat), oldAt none ts c = false) ∧
    (∀ (parent : Nat → Option Nat) (ts : Nat → Int) (ignore : Bool)
        (orig : Nat) (visited : List Nat) (fuel : Nat) (c : Nat),
      addWalk parent (oldAt none ts) ignore orig visited fuel c =
        addWalk parent (oldAt none ts) true orig visited fuel c) := by
  refine ⟨?_, ?_, ?_, ?_, ?_⟩
  · intro h
    simp [date_limit, h]
  · intro h
    simp [date_limit, h]
  · intro hname hc h1 h2
    rw [mainTrace_success env hname hc h1 h2]
    simp only [List.append_assoc, List.mem_append]
    left
    simp
  · intro ts c
    rfl
  · intro parent ts ignore orig visited fuel
    induction fuel with
    | zero => intro c; rfl
    | succ n ih =>
        intro c
        rw [addWalk, addWalk]
        by_cases hv : c ∈ visited
        · simp [hv]
        · have hold : oldAt none ts c = false := rfl
          simp only [hold, Bool.false_and, Bool.and_self, Bool.false_eq_true,
            false_and, if_false]
          simp [hv, ih]

/-- Witness for C8 at a concrete environment. -/
theorem smartlog_C8_witness :
    date_limit envOk.allFlag envOk.now = some (envOk.now - 14 * 24 * 3600) ∧
      Event.treeInit 1 (date_limit envOk.allFlag envOk.now) ∈ mainTrace envOk :=
  ⟨(smartlog_C8 envOk).1 rfl,
   (smartlog_C8 envOk).2.2.1 "origin/main" 1 rfl (by decide)⟩

/-- C9: with a configured `remote`/`head` value, `resolve_head` looks up that
same refname for every candidate, so its result is that of looking up the
configured value alone; without one it returns the first existing
`origin/{name}` over the candidates in order, or `None`; and the candidate
list used by `main` is the inferred default branch (when any) followed by
`main`, `trunk`, `master`. -/
theorem smartlog_C9 :
    (∀ (h : String) (refs : List (String × Nat)) (opts : List String),
      opts ≠ [] →
      resolve_head (some h) refs opts =
        (lookupRef refs h).map (fun c => (h, c))) ∧
    (∀ (refs : List (String × Nat)) (opts : List String),
      resolve_head none refs opts =
        opts.findSome? (fun n =>
          (lookupRef refs ("origin/" ++ n)).map (fun c => ("origin/" ++ n, c)))) ∧
    (∀ d, candidates (some d) = [d, "main", "trunk", "master"]) ∧
    candidates none = ["main", "trunk", "master"] := by
  have haux : ∀ (h : String) (refs : List (String × Nat)),
      lookupRef refs h = none →
      ∀ opts : List String, resolve_head (some h) refs opts = none := by
    intro h refs hnone opts
    induction opts with
    | nil => rfl
    | cons n rest ih => simp [resolve_head, hnone, ih]
  refine ⟨?_, ?_, fun d => rfl, rfl⟩
  · intro h refs opts hne
    cases opts with
    | nil => exact absurd rfl hne
    | cons n rest =>
        cases hl : lookupRef refs h with
        | none => simp [resolve_head, hl, haux h refs hl rest]
        | some c => simp [resolve_head, hl]
  · intro refs opts
    induction opts with
    | nil => rfl
    | cons n rest ih =>
        cases hl : lookupRef refs ("origin/" ++ n) with
        | none => simp [resolve_head, hl, ih, List.findSome?_cons]
        | some c => simp [resolve_head, hl, List.findSome?_cons]

/-- Witness for C9: an unresolvable configured head overrides an otherwise
resolvable candidate list. -/
theorem smartlog_C9_witness :
    resolve_head (some "up/hd") [("origin/main", 1)] ["main"] =
      (lookupRef [("origin/main", 1)] "up/hd").map (fun c => ("up/hd", c)) :=
  smartlog_C9.1 "up/hd" [("origin/main", 1)] ["main"] (by decide)

/-- C10: `main` exits with status 1, after a diagnostic line, exactly when the
working directory is not a git repository or no trunk head resolves; an
unresolvable `extra_refs` entry only prints a warning naming the ref and the
run still finishes. -/
theorem smartlog_C10 (env : Env) :
    (Event.exitOne ∈ mainTrace env ↔
      env.repoValid = false ∨
        resolve_head env.configHead env.refs (candidates env.defaultBranch) =
          none) ∧
    (env.repoValid = false →
      mainTrace env = [Event.printMsg (noRepoMsg env.cwd), Event.exitOne]) ∧
    (env.repoValid = true →
      resolve_head env.configHead env.refs (candidates env.defaultBranch) =
        none →
      mainTrace env = [Event.printMsg "Unable to find head branch!",
        Event.exitOne]) ∧
    (∀ hname hc, env.repoValid = true →
      resolve_head env.configHead env.refs (candidates env.defaultBranch) =
        some (hname, hc) →
      Event.printFinished ∈ mainTrace env ∧
      ∀ keys, env.extraRefs = some keys → ∀ k ∈ keys,
        lookupRef env.refs k = none →
        Event.printMsg (warnMsg k) ∈ mainTrace env) := by
  have hbad : env.repoValid = false →
      mainTrace env = [Event.printMsg (noRepoMsg env.cwd), Event.exitOne] := by
    intro h
    simp [mainTrace, h]
  have hnohead : env.repoValid = true →
      resolve_head env.configHead env.refs (candidates env.defaultBranch) =
        none →
      mainTrace env = [Event.printMsg "Unable to find head branch!",
        Event.exitOne] := by
    intro h1 h2
    rw [mainTrace, h2]
    simp [h1]
  refine ⟨?_, hbad, hnohead, ?_⟩
  · constructor
    · intro hmem
      by_cases h1 : env.repoValid = false
      · exact Or.inl h1
      · have h1' : env.repoValid = true := by
          revert h1; cases env.repoValid <;> simp
        cases h2 : resolve_head env.configHead env.refs
            (candidates env.defaultBranch) with
        | none => exact Or.inr rfl
        | some pr =>
            exact absurd hmem (exitOne_not_success env pr.1 pr.2 h1' (by
              rw [h2]))
    · intro h
      rcases h with h | h
      · rw [hbad h]
        simp
      · by_cases h1 : env.repoValid = false
        · rw [hbad h1]
          simp
        · have h1' : env.repoValid = true := by
            revert h1; cases env.repoValid <;> simp
          rw [hnohead h1' h]
          simp
  · intro hname hc h1 h2
    have htr := mainTrace_success env hname hc h1 h2
    constructor
    · rw [htr]
      exact List.mem_append_right _ (by simp)
    · intro keys hkeys k hk hl
      rw [htr, hkeys]
      simp only [List.append_assoc, List.mem_append]
      exact Or.inr (Or.inr (Or.inl (mem_extraEvents_warn env.refs k hl keys hk)))

/-- Witness for C10: a failing and a successful environment. -/
theorem smartlog_C10_witness :
    Event.exitOne ∈ mainTrace envBad ∧
      Event.exitOne ∉ mainTrace envOk ∧
      Event.printFinished ∈ mainTrace envOk ∧
      Event.printMsg (warnMsg "missing") ∈ mainTrace envOk := by
  have h := smartlog_C10 envOk
  have hgood := h.2.2.2 "origin/main" 1 rfl (by decide)
  refine ⟨(smartlog_C10 envBad).1.mpr (Or.inl rfl), ?_, hgood.1,
    hgood.2 ["origin/extra", "missing"] rfl "missing" (by decide) (by decide)⟩
  intro hmem
  rcases (h.1).mp hmem with hbad | hbad
  · exact absurd hbad (by decide)
  · exact absurd hbad (by decide)

end Smartlog
